import Mathlib

/-! Verification of the bsa zone-file and query-engine specification.

Shallow embedding of the bsa repository (a BIND configuration/zone
analyzer).  Python strings are modelled as `List Char`, Python dicts with
insertion-ordered buckets as association lists, exceptions as `Except`,
and generator pipelines as list-producing functions.  Each definition is
translated from the corresponding function in the source tree
(`bsa/utils.py`, `bsa/bind.py`, `bsa/zone.py`, `bsa/include_handler.py`),
keeping the names of the source where Lean allows.
-/

namespace Bsa


/-- Decidable equality for `Except`, so that concrete runs of the
embedded fallible functions can be checked by `decide`. -/
instance instDecEqExcept {ε α : Type} [DecidableEq ε] [DecidableEq α] :
    DecidableEq (Except ε α)
  | .ok a, .ok b =>
    if h : a = b then isTrue (by rw [h])
    else isFalse (fun he => h (by injection he))
  | .error a, .error b =>
    if h : a = b then isTrue (by rw [h])
    else isFalse (fun he => h (by injection he))
  | .ok _, .error _ => isFalse (fun he => Except.noConfusion he)
  | .error _, .ok _ => isFalse (fun he => Except.noConfusion he)

/-- Python strings are modelled as explicit character lists. -/
abbrev Str := List Char

/-- Shorthand turning a Lean string literal into the `Str` model. -/
def str (s : String) : Str := s.data

/-- Python `s.endswith(".")`. -/
def endsWithDot (s : Str) : Bool := s.getLast? = some '.'

/-- Model of `normalize_label` from `bsa/utils.py`: append a trailing dot when
absent. -/
def normalize_label (label : Str) : Str :=
  if endsWithDot label then label else label ++ ['.']

/-- Python `label.replace(needle, origin)` for the single-character
needle `'@'` used by `join_origin`. -/
def replace_at (l : Str) (origin : Str) : Str :=
  match l with
  | [] => []
  | c :: rest => (if c = '@' then origin else [c]) ++ replace_at rest origin

/-- Branch structure of `join_origin` once the origin has been
normalized and `@` substituted (the `if not label.endswith(".")` block,
with the branches flipped to a positive test). -/
def join_origin_body (label2 origin2 : Str) : Str :=
  if endsWithDot label2 then label2
  else if origin2 = ['.'] then label2 ++ ['.']
  else label2 ++ '.' :: origin2

/-- Model of `join_origin` from `bsa/utils.py`: normalize the origin to end with a
dot, substitute `@`, and append the origin to a relative label. -/
def join_origin (label origin : Str) : Str :=
  let origin2 := if endsWithDot origin then origin else origin ++ ['.']
  join_origin_body (replace_at label origin2) origin2

/-- Prepend a character to the first component of a split result. -/
def consHead (c : Char) : List Str → List Str
  | [] => [[c]]
  | h :: t => (c :: h) :: t

/-- Python `"...".split(".")`: splitting an empty string yields one empty
component, and a trailing separator yields a trailing empty component. -/
def splitOnDot : Str → List Str
  | [] => [[]]
  | c :: rest =>
    if c = '.' then [] :: splitOnDot rest
    else consHead c (splitOnDot rest)

/-- Inverse of `splitOnDot`: interleave the components with dots. -/
def joinDots : List Str → Str
  | [] => []
  | [a] => a
  | a :: rest => a ++ '.' :: joinDots rest

/-! Section: the record model (`bsa/zone.py`, class `Record` and its variants)

Record variants share the header `(label, ttl, class_type, origin, path)`.
The variant payload is kept as the raw rdata token list together with the
record-type tag; `variant_key` rebuilds the `__key__()` tuple of each variant
(note that `__full_key__` does not include `path`, and does not include
the type tag itself). -/

structure Record where
  label : Str
  ttl : Int
  class_type : Str
  origin : Str
  path : Str
  rtype : Str
  rdata : List Str
deriving DecidableEq

/-- Model of `Record.resolved_label` property. -/
def resolved_label (r : Record) : Str := join_origin r.label r.origin

/-- Variant-specific `__key__()` value.  `TXT` wraps its labels in an
extra tuple, `SOA` returns `(primary, mail, numbers)`, `MX` returns
`(target, priority)` while its rdata order is `(priority, target)`; the
remaining variants return their rdata in order. -/
inductive VKey
  | flat (l : List Str)
  | txt (l : List Str)
  | soa (primary mail : Str) (nums : List Str)
deriving DecidableEq

def variant_key (r : Record) : VKey :=
  if r.rtype = str "TXT" then .txt r.rdata
  else if r.rtype = str "SOA" then
    match r.rdata with
    | p :: m :: nums => .soa p m nums
    | l => .flat l
  else if r.rtype = str "MX" then
    match r.rdata with
    | [p, t] => .flat [t, p]
    | l => .flat l
  else .flat r.rdata

/-- Model of `Record.__full_key__`: the tuple governing `__eq__` and `__hash__`
(`path` is excluded). -/
def full_key (r : Record) : Str × Int × Str × Str × VKey :=
  (r.label, r.ttl, r.class_type, r.origin, variant_key r)

/-! Section: shell-style glob matching (Python `fnmatch`, as used by
`FakeBind.wildcard_records`)

`fnmatch.fnmatch(name, pat)` on POSIX compares case-sensitively and
translates the pattern to an anchored regular expression: `*` matches any
character sequence, `?` any single character, and `[...]` a character
class (`[!...]` negated, `a-b` ranges, a `]` right after the opening
bracket is literal, and an unterminated class leaves `[` literal).  The
matcher below is implemented with an explicit fuel argument so that it is
a structural recursion; the fuel used by `fnmatch` is always sufficient. -/

inductive GTok
  | star
  | anyChar
  | cls (negated : Bool) (items : List (Char × Char))
  | lit (c : Char)
deriving DecidableEq

/-- Scan a character-class body up to the closing bracket. -/
def splitAtRB : List Char → Option (List Char × List Char)
  | [] => none
  | c :: rest =>
    if c = ']' then some ([], rest)
    else
      match splitAtRB rest with
      | none => none
      | some (a, b) => some (c :: a, b)

/-- Mirror of the index bookkeeping in `fnmatch.translate`: skip a
leading `!` and a leading literal `]` before searching for the closing
bracket.  Returns the class body and the remaining pattern. -/
def scanClass (l : List Char) : Option (List Char × List Char) :=
  let pre_rest : List Char × List Char :=
    match l with
    | [] => ([], l)
    | c1 :: t1 =>
      if c1 = '!' then
        match t1 with
        | [] => (['!'], [])
        | c2 :: t2 => if c2 = ']' then (['!', ']'], t2) else (['!'], t1)
      else if c1 = ']' then ([']'], t1)
      else ([], l)
  match splitAtRB pre_rest.2 with
  | none => none
  | some (a, b) => some (pre_rest.1 ++ a, b)

/-- Class items: `a-b` forms a range when `-` sits between two
characters, otherwise characters are literal (a single character `c` is
the range `c-c`). -/
def parseItems : List Char → List (Char × Char)
  | a :: '-' :: b :: rest => (a, b) :: parseItems rest
  | a :: rest => (a, a) :: parseItems rest
  | [] => []

def mkClass (content : List Char) : GTok :=
  match content with
  | '!' :: rest => .cls true (parseItems rest)
  | _ => .cls false (parseItems content)

def parseGlobAux : Nat → List Char → List GTok
  | 0, _ => []
  | _ + 1, [] => []
  | fuel + 1, c :: rest =>
    if c = '*' then .star :: parseGlobAux fuel rest
    else if c = '?' then .anyChar :: parseGlobAux fuel rest
    else if c = '[' then
      match scanClass rest with
      | none => .lit '[' :: parseGlobAux fuel rest
      | some (content, after) => mkClass content :: parseGlobAux fuel after
    else .lit c :: parseGlobAux fuel rest

def parseGlob (pat : Str) : List GTok := parseGlobAux pat.length pat

def inClass (items : List (Char × Char)) (c : Char) : Bool :=
  items.any (fun p => decide (p.1 ≤ c) && decide (c ≤ p.2))

/-- Anchored matching of a token list against a string; fuel decreases by
one on every recursive call. -/
def matchT : Nat → List GTok → List Char → Bool
  | 0, _, _ => false
  | _ + 1, [], [] => true
  | _ + 1, [], _ :: _ => false
  | fuel + 1, .star :: ps, [] => matchT fuel ps []
  | fuel + 1, .star :: ps, c :: s =>
    matchT fuel ps (c :: s) || matchT fuel (.star :: ps) s
  | _ + 1, .anyChar :: _, [] => false
  | fuel + 1, .anyChar :: ps, _ :: s => matchT fuel ps s
  | _ + 1, .cls _ _ :: _, [] => false
  | fuel + 1, .cls neg items :: ps, c :: s =>
    (inClass items c != neg) && matchT fuel ps s
  | _ + 1, .lit _ :: _, [] => false
  | fuel + 1, .lit a :: ps, c :: s => decide (a = c) && matchT fuel ps s

/-- Model of `fnmatch.fnmatch(s, pat)` (POSIX, hence case-sensitive). -/
def fnmatch (s pat : Str) : Bool :=
  let toks := parseGlob pat
  matchT (toks.length + s.length + 1) toks s

/-! Section: the query engine (`bsa/bind.py`, class `FakeBind`)

The `ANY` sentinel object becomes a dedicated constructor, labelized keys
are lists of components, and the insertion-ordered `dict` cache becomes
an association list whose buckets grow by appending. -/

/-- A label component: either the wildcard sentinel `FakeBind.ANY` or a
literal component string. -/
inductive Comp
  | ANY
  | lit (s : Str)
deriving DecidableEq

def to_comp (a : Str) : Comp := if a = str "*" then .ANY else .lit a

/-- Model of `FakeBind.map_label`: normalize, split on dots, map `*` to `ANY`. -/
def map_label (label : Str) : List Comp :=
  (splitOnDot (normalize_label label)).map to_comp

/-- Model of `FakeBind.build_keys`: the exact key followed by the key with its
first component replaced by the wildcard sentinel. -/
def build_keys (label : Str) : List (Bool × List Comp) :=
  [(true, map_label label), (true, .ANY :: (map_label label).drop 1)]

/-- A configuration node as seen by the view filter: the root
`BindConfig`, or a `BindView` carrying its name. -/
inductive Config
  | root
  | view (vname : Str)
deriving DecidableEq

/-- The `record` argument accepted by `iquery`: `None`, a list mixing
type-name strings and record classes (classes are identified by their
`record_type` tag), a `Record` instance, or a type-name string. -/
inductive RecSel
  | rname (s : Str)
  | rcls (tag : Str)
deriving DecidableEq

inductive RecFilter
  | null
  | list (l : List RecSel)
  | inst (r : Record)
  | rname (s : Str)
deriving DecidableEq

/-- Model of `record_filter.__call__`.  The `inst` case mirrors
`filter_by_type`: `type(rr) == record_type` compares a class with a
`Record` instance and is therefore always false. -/
def rec_filter_matches (f : RecFilter) (r : Record) : Bool :=
  match f with
  | .null => true
  | .list l =>
    l.any (fun sel =>
      match sel with
      | .rname s => decide (r.rtype = s)
      | .rcls _ => false) ||
    l.any (fun sel =>
      match sel with
      | .rname _ => false
      | .rcls tag => decide (r.rtype = tag))
  | .inst _ => false
  | .rname s => decide (r.rtype = s)

/-- The `view` argument accepted by `iquery`. -/
inductive ViewFilter
  | null
  | list (l : List Str)
  | vname (s : Str)
deriving DecidableEq

/-- Model of `config_filter.__call__`: with no view filter everything passes;
otherwise the root configuration always passes and views are matched by
name. -/
def config_filter_matches (f : ViewFilter) (c : Config) : Bool :=
  match f with
  | .null => true
  | .list l =>
    match c with
    | .root => true
    | .view n => decide (n ∈ l)
  | .vname s =>
    match c with
    | .root => true
    | .view n => decide (n = s)

/-- The zone database handed to `FakeBind`: a list of
`(records, configs)` entries. -/
abbrev Zones := List (List Record × List Config)

/-- The nested iteration `for (zone, configs) in zones: for rr in zone`
shared by `build_cache` and `wildcard_records`. -/
def all_pairs (zones : Zones) : List (Record × List Config) :=
  zones.foldr (fun zc acc => zc.1.map (fun rr => (rr, zc.2)) ++ acc) []

abbrev Cache := List (List Comp × List (Record × List Config))

/-- Association-list lookup, `cache.get(key, [])`. -/
def cache_get : Cache → List Comp → List (Record × List Config)
  | [], _ => []
  | (k, v) :: rest, key => if k = key then v else cache_get rest key

/-- Model of `cache.setdefault(key, []).append(entry)`. -/
def cache_put (c : Cache) (key : List Comp) (e : Record × List Config) : Cache :=
  match c with
  | [] => [(key, [e])]
  | (k, v) :: rest =>
    if k = key then (k, v ++ [e]) :: rest else (k, v) :: cache_put rest key e

/-- Model of `FakeBind.build_cache`. -/
def build_cache (zones : Zones) : Cache :=
  (all_pairs zones).foldl
    (fun c p => cache_put c (map_label (resolved_label p.1)) p) []

/-- One bucket pass of `regular_iquery`: the cache bucket for a key put
through the record filter (`filter(rec_filter, cache.get(key, []))`) and
the view filter (`any(filter(cfg_filter, configs))`). -/
def hitsOf (cache : Cache) (rf : RecFilter) (vf : ViewFilter)
    (key : List Comp) : List (Record × List Config) :=
  ((cache_get cache key).filter (fun p => rec_filter_matches rf p.1)).filter
    (fun p => p.2.any (fun c => config_filter_matches vf c))

/-- The records a single bucket of `regular_iquery` yields. -/
def bucket_hits (zones : Zones) (key : List Comp) (rf : RecFilter)
    (vf : ViewFilter) : List Record :=
  (hitsOf (build_cache zones) rf vf key).map (fun p => p.1)

/-- The loop body of `FakeBind.regular_iquery`: walk the keys from
`build_keys`, yield every record of the bucket passing both filters, and
break as soon as any bucket has yielded (`found_any`). -/
def iq_go (cache : Cache) (rf : RecFilter) (vf : ViewFilter) :
    List (Bool × List Comp) → Bool → List Record
  | [], _ => []
  | (_, key) :: ks, found =>
    let hits := hitsOf cache rf vf key
    let found2 := found || decide (hits ≠ [])
    hits.map (fun p => p.1) ++
      (if found2 then [] else iq_go cache rf vf ks found2)

/-- Model of `FakeBind.regular_iquery`. -/
def regular_iquery (zones : Zones) (label : Str) (rf : RecFilter)
    (vf : ViewFilter) : List Record :=
  iq_go (build_cache zones) rf vf (build_keys label) false

/-- Model of `FakeBind.wildcard_records`: every record in every zone whose
`resolved_label` glob-matches the name. -/
def wildcard_records (zones : Zones) (name : Str) :
    List (Record × List Config) :=
  (all_pairs zones).filter (fun p => fnmatch (resolved_label p.1) name)

/-- Model of `FakeBind.wildcard_iquery`. -/
def wildcard_iquery (zones : Zones) (label : Str) (rf : RecFilter)
    (vf : ViewFilter) : List Record :=
  let name := normalize_label label
  (((wildcard_records zones name).filter
        (fun p => rec_filter_matches rf p.1)).filter
      (fun p => p.2.any (fun c => config_filter_matches vf c))).map
    (fun p => p.1)

/-- Model of `FakeBind.unqiue_generator` (name as in the source): drop records
whose `__full_key__` has already been yielded. -/
def unqiue_go : List Record → List (Str × Int × Str × Str × VKey) → List Record
  | [], _ => []
  | r :: rs, seen =>
    if full_key r ∈ seen then unqiue_go rs seen
    else r :: unqiue_go rs (full_key r :: seen)

def unqiue_generator (gen : List Record) : List Record := unqiue_go gen []

/-- Model of `FakeBind.iquery`: dispatch on a `*` in the label, then optionally
de-duplicate. -/
def iquery (zones : Zones) (label : Str) (rf : RecFilter) (vf : ViewFilter)
    (unique : Bool) : List Record :=
  let gen :=
    if '*' ∈ label then wildcard_iquery zones label rf vf
    else regular_iquery zones label rf vf
  if unique then unqiue_generator gen else gen

/-- Model of `FakeBind.query`: materialize the iterator (already a list here). -/
def query (zones : Zones) (label : Str) (rf : RecFilter) (vf : ViewFilter)
    (unique : Bool) : List Record :=
  iquery zones label rf vf unique

/-! Section: the zone tokenizer and parser (`bsa/zone.py`)

`ZoneParser.zone_tokenizer` is a character-level state machine yielding
string tokens with `none` sentinels at logical line boundaries; it is
modelled as a fold producing `List (Option Str)`.  Python exceptions
(`ValueError`, `IndexError`, `TypeError`) become `Except.error` with the
exception rendered as a message string. -/

structure TokState where
  collected : Str
  quoted : Bool
  multiline : Bool
  comment : Bool
  escape : Bool
  first : Bool
deriving DecidableEq

def tokInit : TokState :=
  { collected := [], quoted := false, multiline := false, comment := false,
    escape := false, first := false }

def is_whitespace (c : Char) : Bool := c = '\t' ∨ c = '\r' ∨ c = ' '

/-- The body of the tokenizer loop after the first-column check, in the
test order of the source: newline, escape, comment start, comment, whitespace
outside quotes, escape start, quote toggle, parenthesis continuation,
plain character. -/
def tokMain (st : TokState) (c : Char) : TokState × List (Option Str) :=
  if c = '\n' then
    ({ st with comment := false, quoted := false, collected := [],
               first := if st.multiline then st.first else true },
      (if st.collected ≠ [] then [some st.collected] else []) ++
        (if st.multiline then [] else [none]))
  else if st.escape then
    ({ st with collected := st.collected ++ [c], escape := false }, [])
  else if c = ';' then
    ({ st with comment := true }, [])
  else if st.comment then
    (st, [])
  else if ¬ st.quoted ∧ is_whitespace c then
    if st.collected ≠ [] then ({ st with collected := [] }, [some st.collected])
    else (st, [])
  else if c = '\\' then
    ({ st with escape := true }, [])
  else if c = '"' then
    ({ st with quoted := ¬ st.quoted }, [])
  else if c = '(' then
    ({ st with multiline := true }, [])
  else if c = ')' then
    ({ st with multiline := false }, [])
  else
    ({ st with collected := st.collected ++ [c] }, [])

/-- One tokenizer step including the first-column significance check. -/
def tokStep (st : TokState) (c : Char) : TokState × List (Option Str) :=
  if st.first then
    let st2 := { st with first := false }
    if is_whitespace c then (st2, [some []]) else tokMain st2 c
  else tokMain st c

/-- Model of `ZoneParser.zone_tokenizer` over a whole character stream, including
the trailing `yield collected; yield None` when the stream ends inside a
token. -/
def zone_tokenizer (input : Str) : List (Option Str) :=
  let fin := input.foldl
    (fun acc c =>
      let step := tokStep acc.1 c
      (step.1, acc.2 ++ step.2))
    (tokInit, [])
  fin.2 ++ (if fin.1.collected ≠ [] then [some fin.1.collected, none] else [])

/-- Model of `ZoneParser.generate_lines`: group tokens between `none` sentinels,
skipping empty lines; tokens after the last sentinel are dropped exactly
as the generator drops them. -/
def generate_lines (toks : List (Option Str)) : List (List Str) :=
  (toks.foldl
      (fun acc t =>
        match t with
        | none => if acc.1 ≠ [] then ([], acc.2 ++ [acc.1]) else acc
        | some tk => (acc.1 ++ [tk], acc.2))
      (([] : List Str), ([] : List (List Str)))).2

/-- Python `t[i]` on a tuple, raising `IndexError` when out of range. -/
def idx (l : List Str) (i : Nat) : Except String Str :=
  match l.get? i with
  | some v => .ok v
  | none => .error "IndexError: tuple index out of range"

/-- Python `int(tok)` for the tokens this parser feeds it: an optional
sign followed by decimal digits (`int` also strips surrounding
whitespace, which the tokenizer never leaves in a token). -/
def pyInt (s : Str) : Except String Int :=
  let digits (ds : Str) : Bool := ¬ ds.isEmpty ∧ ds.all Char.isDigit
  let value (ds : Str) : Int := ds.foldl (fun acc c => acc * 10 + (c.toNat - 48 : Int)) 0
  if s.head? = some '-' then
    if digits s.tail then .ok (- value s.tail)
    else .error "ValueError: invalid literal for int"
  else
    if digits s then .ok (value s)
    else .error "ValueError: invalid literal for int"

/-- Model of `Record.VALID_CLASS_TYPES`. -/
def class_types : List Str := [str "IN", str "CH"]

/-- The record types registered by `ZoneParser.__init__` (no custom
records). -/
def names9 : List Str :=
  [str "A", str "CNAME", str "PTR", str "TXT", str "NS", str "MX",
   str "SRV", str "AFSDB", str "SOA"]

/-- Result of `ZoneParser.parse_zone_line`: a pragma line or an
owner/ttl/class/type/rdata record line. -/
inductive ZLine
  | P (val : List Str)
  | R (label : Str) (ttl : Option Int) (class_type : Option Str)
      (rtype : Str) (rdata : List Str)
deriving DecidableEq

/-- Model of `ZoneParser.parse_zone_line`: positional disambiguation of
owner/TTL/class/type using the registered type names and the valid class
set. -/
def parse_zone_line (names : List Str) (l : List Str) : Except String ZLine := do
  let l0 ← idx l 0
  if l0.head? = some '$' then
    return .P l
  let l1 ← idx l 1
  if l1 ∈ names then
    return .R l0 none none l1 (l.drop 2)
  let l2 ← idx l 2
  if l2 ∈ names then
    if l1 ∈ class_types then
      return .R l0 none (some l1) l2 (l.drop 3)
    else
      let n ← pyInt l1
      return .R l0 (some n) none l2 (l.drop 3)
  let l3 ← idx l 3
  if l3 ∈ names then
    if l2 ∈ class_types then
      let n ← pyInt l1
      return .R l0 (some n) (some l2) l3 (l.drop 4)
    else if l1 ∈ class_types then
      let n ← pyInt l2
      return .R l0 (some n) (some l1) l3 (l.drop 4)
    else
      Except.error "ValueError: cannot handle line"
  else
    Except.error "ValueError: cannot handle line"

/-- The mutable state of `RecordBuilder`: previous owner label, default
TTL, and the `(path, origin)` stack, stored top-first (`stack[-1]` is the
head).  A Python `None` origin is modelled as the empty string, which is
equally falsy where the origin is consumed. -/
structure RBState where
  previous_label : Option Str
  ttl : Int
  stack : List (Str × Str)
deriving DecidableEq

/-- Python truthiness of `self.previous_label` (`None` or `""`). -/
def falsy_label : Option Str → Bool
  | none => true
  | some l => l.isEmpty

/-- Model of `Record.__init__`: default the class type (validating a given one
against `VALID_CLASS_TYPES`), default the TTL, and replace a falsy
origin by the root. -/
def mk_record (lab : Str) (ttl? : Option Int) (ct? : Option Str)
    (origin path : Str) (rtype : Str) (rdata : List Str) :
    Except String Record := do
  let ct ←
    match ct? with
    | some c =>
      if c ∈ class_types then Except.ok c
      else Except.error "ValueError: Invalid class type"
    | none => Except.ok (str "IN")
  return { label := lab, ttl := ttl?.getD 86400, class_type := ct,
           origin := if origin.isEmpty then str "." else origin,
           path := path, rtype := rtype, rdata := rdata }

/-- Model of `RecordBuilder.build_name_record`: resolve an empty owner through the
previous label (raising when there is none), default the TTL, and build
the record; an unregistered type logs and yields `None`. -/
def build_name_record (names : List Str) (s : RBState) (lab : Str)
    (ttl? : Option Int) (ct : Option Str) (rtype : Str) (rdata : List Str) :
    Except String (RBState × Option Record) := do
  match s.stack with
  | [] => Except.error "IndexError: list index out of range"
  | (path, origin) :: _ =>
    let resolved ←
      if lab.isEmpty then
        match s.previous_label with
        | none => Except.error "ValueError: No previous label"
        | some pl =>
          if pl.isEmpty then Except.error "ValueError: No previous label"
          else Except.ok (pl, s)
      else Except.ok (lab, { s with previous_label := some lab })
    let ttl := ttl?.getD s.ttl
    if rtype ∈ names then
      let r ← mk_record resolved.1 (some ttl) ct origin path rtype rdata
      return (resolved.2, some r)
    else
      return (resolved.2, none)

/-- Model of `ZoneParser.handle_pragma`.  `$ORIGIN` rewrites the origin of the top
stack frame and `$TTL` the default TTL.  `$INCLUDE` executes
`self.include_handler(None, None, val)`, but `IncludeHandler.__call__`
accepts a single `path` argument, so the call raises `TypeError` before
any path or origin-override argument is examined. -/
def handle_pragma (s : RBState) (val : List Str) :
    Except String (RBState × List (Option Record)) := do
  let name ← idx val 0
  if name = str "$ORIGIN" then
    let o ← idx val 1
    match s.stack with
    | [] => Except.error "IndexError: list index out of range"
    | (p, _) :: rest => return ({ s with stack := (p, o) :: rest }, [])
  else if name = str "$TTL" then
    let t ← idx val 1
    let n ← pyInt t
    return ({ s with ttl := n }, [])
  else if name = str "$INCLUDE" then
    Except.error "TypeError: __call__ takes exactly 2 arguments (4 given)"
  else
    Except.error "ValueError: unknown pragma"

/-- The loop of `ZoneParser.parse_generator` over tokenized lines:
pragmas extend the result with their (empty) record lists, record lines
append the result of `build_name_record` — including the `None` an
unregistered type produces. -/
def parse_lines (names : List Str) :
    RBState → List (List Str) → Except String (RBState × List (Option Record))
  | s, [] => .ok (s, [])
  | s, line :: rest => do
    let zl ← parse_zone_line names line
    match zl with
    | .P val => do
      let pr ← handle_pragma s val
      let more ← parse_lines names pr.1 rest
      return (more.1, pr.2 ++ more.2)
    | .R lab ttl ct rtype rdata => do
      let br ← build_name_record names s lab ttl ct rtype rdata
      let more ← parse_lines names br.1 rest
      return (more.1, br.2 :: more.2)

/-- Model of `ZoneParser.parse_generator` ∘ `generate_lines` ∘ `zone_tokenizer`
over a character stream. -/
def parse_generator (names : List Str) (s : RBState) (input : Str) :
    Except String (RBState × List (Option Record)) :=
  parse_lines names s (generate_lines (zone_tokenizer input))

/-- The builder state `ZoneParser.__init__` sets up for a path with no
explicit origin (`origin=None`, modelled as the empty string). -/
def rb_init (path : Str) : RBState :=
  { previous_label := none, ttl := 86400, stack := [(path, [])] }

/-! Section: the path resolver (`bsa/include_handler.py`, `build_path`)

The `os.path` primitives are modelled after POSIX `posixpath`.  The
filesystem query `os.path.isfile` becomes an explicit `Str → Bool`
parameter.  `posixpath.relpath` calls `abspath` on its two arguments;
`build_path` only reaches `relpath` with an absolute `path`, and the
current-working-directory resolution of a relative `start` is elided. -/

def isabs (p : Str) : Bool := p.head? = some '/'

/-- Model of `posixpath.join` for two components. -/
def pjoin (a b : Str) : Str :=
  if b.head? = some '/' then b
  else if a = [] ∨ a.getLast? = some '/' then a ++ b
  else a ++ '/' :: b

def splitOnSlash : Str → List Str
  | [] => [[]]
  | c :: rest =>
    if c = '/' then [] :: splitOnSlash rest
    else consHead c (splitOnSlash rest)

def joinSlash : List Str → Str
  | [] => []
  | [a] => a
  | a :: rest => a ++ '/' :: joinSlash rest

/-- Model of `posixpath.dirname`: everything up to the final slash, with trailing
slashes stripped unless the head is all slashes. -/
def dirname (p : Str) : Str :=
  let head := (p.reverse.dropWhile (fun c => ¬ c = '/')).reverse
  if head ≠ [] ∧ head.any (fun c => ¬ c = '/') then
    (head.reverse.dropWhile (fun c => c = '/')).reverse
  else head

/-- Model of `posixpath.normpath`: collapse `.`/`..`/empty components, keeping up
to two leading slashes. -/
def normpath (p : Str) : Str :=
  if p = [] then str "."
  else
    let initialSlashes : Nat :=
      if p.head? = some '/' then
        if p.take 2 = str "//" ∧ ¬ p.take 3 = str "///" then 2 else 1
      else 0
    let newComps := (splitOnSlash p).foldl
      (fun acc comp =>
        if comp = [] ∨ comp = str "." then acc
        else if ¬ comp = str ".." ∨ (initialSlashes = 0 ∧ acc = []) ∨
            (acc ≠ [] ∧ acc.getLast? = some (str "..")) then acc ++ [comp]
        else if acc ≠ [] then acc.dropLast
        else acc)
      ([] : List Str)
    let path := List.replicate initialSlashes '/' ++ joinSlash newComps
    if path = [] then str "." else path

def commonPrefixLen : List Str → List Str → Nat
  | a :: as1, b :: bs1 => if a = b then 1 + commonPrefixLen as1 bs1 else 0
  | _, _ => 0

/-- Model of `posixpath.relpath(path, start)` for normalized absolute arguments. -/
def relpath (path start : Str) : Str :=
  let start_list := (splitOnSlash (normpath start)).filter (fun x => ¬ x.isEmpty)
  let path_list := (splitOnSlash (normpath path)).filter (fun x => ¬ x.isEmpty)
  let i := commonPrefixLen start_list path_list
  let rel_list :=
    List.replicate (start_list.length - i) (str "..") ++ path_list.drop i
  if rel_list = [] then str "." else joinSlash rel_list

/-- Model of `build_path` from `bsa/include_handler.py`: absolute references are
remapped from the fake root into the root directory, otherwise the root
directory is probed for the file, otherwise the reference is taken
relative to the including file. -/
def build_path (isfile : Str → Bool) (root_directory path last_path fake_root : Str) :
    Str :=
  if isabs path then
    pjoin root_directory (relpath path fake_root)
  else
    let from_root := pjoin root_directory path
    if isfile from_root then from_root
    else pjoin (dirname last_path) path

/-- Scenario S1 from the specification: owner `.`, four blank-owner
lines, owner `www`, one blank-owner line. -/
def S1 : Str :=
  str "$ORIGIN example.com.\n.        A  1.1.1.1\n  42     A  1.1.1.1\n  CH     A  1.1.1.1\n  42 CH  A  1.1.1.1\n  CH 42  A  1.1.1.1\nwww      A  1.1.1.1\n         A  1.1.1.1\n"

/-- Projection of a record used to state the S1 expectations. -/
structure S1Sum where
  resolved : Str
  ttl : Int
  class_type : Str
  rtype : Str
  label : Str
deriving DecidableEq

/-- The `(resolved_label, ttl, class_type, record_type, label)` tuples
of the records the zone machinery produces from S1. -/
def s1_summaries : List (Option S1Sum) :=
  match parse_generator names9 (rb_init (str "test.zone")) S1 with
  | .ok (_, recs) =>
    recs.map (Option.map (fun r =>
      { resolved := resolved_label r, ttl := r.ttl,
        class_type := r.class_type, rtype := r.rtype,
        label := r.label : S1Sum }))
  | .error _ => []

/-- A concrete builder state with no previous label, used by the C9
witness. -/
def rb_w : RBState :=
  { previous_label := none, ttl := 86400, stack := [(str "z", str "o.")] }

/-- A concrete record resolving to `a.b.`, used by witnesses. -/
def rbw1 : Record :=
  { label := str "a.b.", ttl := 86400, class_type := str "IN",
    origin := str ".", path := [], rtype := str "A",
    rdata := [str "1.1.1.1"] }

/-- A concrete one-zone database, used by witnesses. -/
def zones_w : Zones := [([rbw1], [Config.root])]

/-- A record resolving to `y.d[ab].`, a name containing glob
metacharacters; used by the C8 counterexample. -/
def rGlob : Record :=
  { label := str "y.d[ab].", ttl := 86400, class_type := str "IN",
    origin := str ".", path := [], rtype := str "A",
    rdata := [str "1.1.1.1"] }

def zones_g : Zones := [([rGlob], [Config.root])]

theorem endsWithDot_append (a b : Str) (hb : b ≠ []) :
    endsWithDot (a ++ b) = endsWithDot b := by
  simp only [endsWithDot, List.getLast?_append_of_ne_nil a hb]

theorem endsWithDot_snoc_dot (a : Str) : endsWithDot (a ++ ['.']) = true := by
  rw [endsWithDot_append a ['.'] (by simp)]
  rfl

theorem normalize_endsWithDot (s : Str) : endsWithDot (normalize_label s) = true := by
  unfold normalize_label
  by_cases h : endsWithDot s
  · simp [h]
  · simp [h, endsWithDot_snoc_dot]

theorem normalize_of_endsWithDot (s : Str) (h : endsWithDot s = true) :
    normalize_label s = s := by
  simp [normalize_label, h]

theorem join_origin_origin2_endsWithDot (origin : Str) :
    endsWithDot (if endsWithDot origin then origin else origin ++ ['.']) = true := by
  by_cases h : endsWithDot origin
  · simp [h]
  · simp [h, endsWithDot_snoc_dot]

theorem join_origin_body_endsWithDot (label2 origin2 : Str)
    (h2 : endsWithDot origin2 = true) :
    endsWithDot (join_origin_body label2 origin2) = true := by
  unfold join_origin_body
  by_cases hl : endsWithDot label2
  · simp [hl]
  · by_cases hdot : origin2 = ['.']
    · simp [hl, hdot, endsWithDot_snoc_dot]
    · have hne : origin2 ≠ [] := by
        intro h
        rw [h] at h2
        simp [endsWithDot] at h2
      have hcons : endsWithDot (label2 ++ '.' :: origin2) = true := by
        rw [endsWithDot_append label2 ('.' :: origin2) (by simp)]
        have hsplit : ('.' :: origin2 : Str) = ['.'] ++ origin2 := rfl
        rw [hsplit, endsWithDot_append ['.'] origin2 hne]
        exact h2
      simp [hl, hdot, hcons]

/-- Core fact behind claim C6: `join_origin` always produces an absolute
name. -/
theorem join_origin_endsWithDot (label origin : Str) :
    endsWithDot (join_origin label origin) = true := by
  unfold join_origin
  exact join_origin_body_endsWithDot _ _ (join_origin_origin2_endsWithDot origin)

theorem splitOnDot_nil : splitOnDot [] = [[]] := rfl

theorem splitOnDot_cons (c : Char) (rest : Str) :
    splitOnDot (c :: rest) =
      if c = '.' then [] :: splitOnDot rest else consHead c (splitOnDot rest) := rfl

theorem consHead_cons (c : Char) (h : Str) (t : List Str) :
    consHead c (h :: t) = (c :: h) :: t := rfl

theorem splitOnDot_ne_nil (s : Str) : splitOnDot s ≠ [] := by
  match s with
  | [] => simp [splitOnDot_nil]
  | c :: rest =>
    rw [splitOnDot_cons]
    by_cases h : c = '.'
    · simp [h]
    · simp only [h, if_false]
      match hrec : splitOnDot rest with
      | [] => simp [consHead]
      | h2 :: t2 => simp [consHead_cons]

theorem joinDots_cons (a : Str) (l : List Str) (hl : l ≠ []) :
    joinDots (a :: l) = a ++ '.' :: joinDots l := by
  match l with
  | [] => exact absurd rfl hl
  | b :: t => rfl

theorem joinDots_splitOnDot (s : Str) : joinDots (splitOnDot s) = s := by
  match s with
  | [] => rfl
  | c :: rest =>
    have ih := joinDots_splitOnDot rest
    rw [splitOnDot_cons]
    by_cases h : c = '.'
    · simp only [h, if_true]
      rw [joinDots_cons [] (splitOnDot rest) (splitOnDot_ne_nil rest)]
      simp [ih, h]
    · simp only [h, if_false]
      match hrec : splitOnDot rest with
      | [] => exact absurd hrec (splitOnDot_ne_nil rest)
      | h2 :: t2 =>
        rw [hrec] at ih
        rw [consHead_cons]
        match t2 with
        | [] =>
          simp only [joinDots] at ih ⊢
          simp [ih]
        | u :: t3 =>
          rw [joinDots_cons h2 (u :: t3) (by simp)] at ih
          rw [joinDots_cons (c :: h2) (u :: t3) (by simp)]
          simp [← ih]

theorem splitOnDot_append_cons (y rest : Str) (hy : '.' ∉ y) :
    splitOnDot (y ++ '.' :: rest) = y :: splitOnDot rest := by
  match y with
  | [] => simp [splitOnDot_cons]
  | c :: t =>
    have hc : c ≠ '.' := fun h => hy (h ▸ List.mem_cons_self c t)
    have ht : '.' ∉ t := fun h => hy (List.mem_cons_of_mem c h)
    have ih := splitOnDot_append_cons t rest ht
    simp only [List.cons_append]
    rw [splitOnDot_cons]
    simp only [hc, if_false]
    rw [ih, consHead_cons]

theorem mem_of_mem_splitOnDot (s a : Str) (c : Char)
    (ha : a ∈ splitOnDot s) (hc : c ∈ a) : c ∈ s := by
  match s with
  | [] =>
    simp [splitOnDot_nil] at ha
    subst ha
    exact absurd hc (List.not_mem_nil c)
  | d :: rest =>
    rw [splitOnDot_cons] at ha
    by_cases h : d = '.'
    · simp only [h, if_true] at ha
      rcases List.mem_cons.1 ha with h1 | h1
      · subst h1; exact absurd hc (List.not_mem_nil c)
      · exact List.mem_cons_of_mem d (mem_of_mem_splitOnDot rest a c h1 hc)
    · simp only [h, if_false] at ha
      match hrec : splitOnDot rest with
      | [] => exact absurd hrec (splitOnDot_ne_nil rest)
      | h2 :: t2 =>
        rw [hrec, consHead_cons] at ha
        rcases List.mem_cons.1 ha with h1 | h1
        · subst h1
          rcases List.mem_cons.1 hc with h3 | h3
          · exact h3 ▸ List.mem_cons_self d rest
          · exact List.mem_cons_of_mem d
              (mem_of_mem_splitOnDot rest h2 c (hrec ▸ List.mem_cons_self h2 t2) h3)
        · exact List.mem_cons_of_mem d
            (mem_of_mem_splitOnDot rest a c (hrec ▸ List.mem_cons_of_mem h2 h1) hc)

theorem mem_normalize (s : Str) (c : Char) (h : c ∈ normalize_label s) :
    c ∈ s ∨ c = '.' := by
  unfold normalize_label at h
  by_cases he : endsWithDot s
  · simp only [he, if_true] at h
    exact Or.inl h
  · simp only [he, Bool.false_eq_true, if_false] at h
    rcases List.mem_append.1 h with h1 | h1
    · exact Or.inl h1
    · simp at h1
      exact Or.inr h1

theorem resolved_label_endsWithDot (r : Record) :
    endsWithDot (resolved_label r) = true :=
  join_origin_endsWithDot r.label r.origin

/-- C6: for every label string and every origin string,
`join_origin(label, origin)` returns a string ending with a dot;
consequently the `resolved_label` of every record is an absolute name ending
in a dot. -/
theorem join_origin_always_absolute :
    (∀ label origin : Str, endsWithDot (join_origin label origin) = true) ∧
      (∀ r : Record, endsWithDot (resolved_label r) = true) :=
  ⟨join_origin_endsWithDot, resolved_label_endsWithDot⟩

/-- C5: `build_path` resolves a reference by exactly the three-case
rule: an absolute `p` is re-rooted via `relpath` against the fake root,
otherwise `root/p` wins when the filesystem reports it as a regular
file, otherwise `p` is taken relative to the directory of the including
file. -/
theorem build_path_three_cases (isfile : Str → Bool)
    (root p last fake : Str) :
    (isabs p = true →
      build_path isfile root p last fake = pjoin root (relpath p fake)) ∧
    (isabs p = false → isfile (pjoin root p) = true →
      build_path isfile root p last fake = pjoin root p) ∧
    (isabs p = false → isfile (pjoin root p) = false →
      build_path isfile root p last fake = pjoin (dirname last) p) := by
  refine ⟨fun h1 => ?_, fun h1 h2 => ?_, fun h1 h2 => ?_⟩
  · simp [build_path, h1]
  · simp [build_path, h1, h2]
  · simp [build_path, h1, h2]

/-- Witness for C5: the root-relative case at a concrete filesystem. -/
theorem build_path_three_cases_witness :
    build_path (fun s => decide (s = str "/r/z.conf")) (str "/r")
        (str "z.conf") (str "/r/named.conf") (str "/etc/bind") =
      str "/r/z.conf" :=
  (build_path_three_cases (fun s => decide (s = str "/r/z.conf")) (str "/r")
      (str "z.conf") (str "/r/named.conf") (str "/etc/bind")).2.1
    (by decide) (by decide)

set_option maxRecDepth 16384 in
/-- C3 (code bug): processing a `$INCLUDE` pragma does not parse the
included file at all — `handle_pragma` invokes
`self.include_handler(None, None, val)` while `IncludeHandler.__call__`
accepts a single `path` argument, so the pragma raises `TypeError`
without reading the path or the optional origin override. -/
theorem include_pragma_raises :
    parse_generator names9 (rb_init (str "test.zone"))
        (str "$INCLUDE sub.zone\n") =
      .error "TypeError: __call__ takes exactly 2 arguments (4 given)" := by
  decide

set_option maxRecDepth 16384 in
/-- C4 (code bug): a semicolon starts a comment even between double
quotes — the tokenizer tests `c == ';'` before consulting `quoted`, so
the stream with a quoted `a;b` loses everything from the semicolon to
the newline (including the closing quote and the following token)
instead of keeping the literal token `a;b`; whitespace inside quotes is
kept literally as the claim states. -/
theorem tokenizer_comment_inside_quotes :
    zone_tokenizer (str "\"a;b\" c\n") = [some (str "a"), none] ∧
      (str "a" : Str) ≠ str "a;b" ∧
      zone_tokenizer (str "\"a b\" c\n") =
        [some (str "a b"), some (str "c"), none] :=
  ⟨by decide, by decide, by decide⟩

set_option maxRecDepth 16384 in
/-- C2 counterexample: on S1 the five records with owner `.` have
`resolved_label` equal to `.` (the owner is already absolute, so
`join_origin` leaves it alone) — not a member of
`{example.com., www.example.com.}` as the claim demands. -/
theorem s1_root_owner_cex :
    s1_summaries.map (Option.map (fun t => t.resolved)) =
      [some (str "."), some (str "."), some (str "."), some (str "."),
       some (str "."), some (str "www.example.com."),
       some (str "www.example.com.")] ∧
      (str ".") ∉ [str "example.com.", str "www.example.com."] :=
  ⟨by decide, by decide⟩

set_option maxRecDepth 16384 in
/-- C2 (amended): `parse_zone_line` disambiguates owner/TTL/class/type
positionally over the shapes OWNER TYPE, OWNER TTL TYPE, OWNER CLASS
TYPE, OWNER TTL CLASS TYPE, OWNER CLASS TTL TYPE (TTL a decimal
integer, class in `{IN, CH}`), and on the S1 zone the parser yields
seven A-records whose `resolved_label` is in `{., www.example.com.}`,
classes `IN, IN, CH, CH, CH, IN, IN`, TTLs `default, 42, default, 42,
42, default, default`, and the final record inherits owner `www`. -/
theorem parse_zone_line_shapes_and_s1 :
    (s1_summaries =
      [some ⟨str ".", 86400, str "IN", str "A", str "."⟩,
       some ⟨str ".", 42, str "IN", str "A", str "."⟩,
       some ⟨str ".", 86400, str "CH", str "A", str "."⟩,
       some ⟨str ".", 42, str "CH", str "A", str "."⟩,
       some ⟨str ".", 42, str "CH", str "A", str "."⟩,
       some ⟨str "www.example.com.", 86400, str "IN", str "A", str "www"⟩,
       some ⟨str "www.example.com.", 86400, str "IN", str "A", str "www"⟩]) ∧
    (∀ o t rest, o.head? ≠ some '$' → t ∈ names9 →
      parse_zone_line names9 (o :: t :: rest) =
        .ok (.R o none none t rest)) ∧
    (∀ o tt t rest n, o.head? ≠ some '$' → tt ∉ names9 →
      tt ∉ class_types → pyInt tt = .ok n → t ∈ names9 →
      parse_zone_line names9 (o :: tt :: t :: rest) =
        .ok (.R o (some n) none t rest)) ∧
    (∀ o c t rest, o.head? ≠ some '$' → c ∈ class_types → t ∈ names9 →
      parse_zone_line names9 (o :: c :: t :: rest) =
        .ok (.R o none (some c) t rest)) ∧
    (∀ o tt c t rest n, o.head? ≠ some '$' → tt ∉ names9 →
      pyInt tt = .ok n → c ∈ class_types → t ∈ names9 →
      parse_zone_line names9 (o :: tt :: c :: t :: rest) =
        .ok (.R o (some n) (some c) t rest)) ∧
    (∀ o c tt t rest n, o.head? ≠ some '$' → c ∈ class_types →
      tt ∉ names9 → tt ∉ class_types → pyInt tt = .ok n → t ∈ names9 →
      parse_zone_line names9 (o :: c :: tt :: t :: rest) =
        .ok (.R o (some n) (some c) t rest)) := by
  have hcls : ∀ c : Str, c ∈ class_types → c ∉ names9 := by
    intro c hc
    simp only [class_types, List.mem_cons, List.not_mem_nil, or_false] at hc
    rcases hc with rfl | rfl <;> decide
  refine ⟨by decide, ?_, ?_, ?_, ?_, ?_⟩
  · intro o t rest h1 h2
    simp [parse_zone_line, idx, Bind.bind, Except.bind, Pure.pure,
      Except.pure, h1, h2]
  · intro o tt t rest n h1 h2 h3 h4 h5
    simp [parse_zone_line, idx, Bind.bind, Except.bind, Pure.pure,
      Except.pure, Functor.map, Except.map, h1, h2, h3, h4, h5]
  · intro o c t rest h1 h2 h3
    simp [parse_zone_line, idx, Bind.bind, Except.bind, Pure.pure,
      Except.pure, h1, h2, h3, hcls c h2]
  · intro o tt c t rest n h1 h2 h3 h4 h5
    simp [parse_zone_line, idx, Bind.bind, Except.bind, Pure.pure,
      Except.pure, Functor.map, Except.map, h1, h2, h3, h4, h5, hcls c h4]
  · intro o c tt t rest n h1 h2 h3 h4 h5 h6
    simp [parse_zone_line, idx, Bind.bind, Except.bind, Pure.pure,
      Except.pure, Functor.map, Except.map, h1, h2, h3, h4, h5, h6,
      hcls c h2]

set_option maxRecDepth 16384 in
/-- Witness for C2: the five accepted shapes at concrete tokens. -/
theorem parse_zone_line_shapes_witness :
    parse_zone_line names9 [str "www", str "A", str "1.1.1.1"] =
        .ok (.R (str "www") none none (str "A") [str "1.1.1.1"]) ∧
      parse_zone_line names9 [str "www", str "42", str "A", str "1.1.1.1"] =
        .ok (.R (str "www") (some 42) none (str "A") [str "1.1.1.1"]) ∧
      parse_zone_line names9 [str "www", str "CH", str "A", str "1.1.1.1"] =
        .ok (.R (str "www") none (some (str "CH")) (str "A")
          [str "1.1.1.1"]) ∧
      parse_zone_line names9
          [str "www", str "42", str "CH", str "A", str "1.1.1.1"] =
        .ok (.R (str "www") (some 42) (some (str "CH")) (str "A")
          [str "1.1.1.1"]) ∧
      parse_zone_line names9
          [str "www", str "CH", str "42", str "A", str "1.1.1.1"] =
        .ok (.R (str "www") (some 42) (some (str "CH")) (str "A")
          [str "1.1.1.1"]) :=
  ⟨(parse_zone_line_shapes_and_s1).2.1 (str "www") (str "A") [str "1.1.1.1"]
      (by decide) (by decide),
    (parse_zone_line_shapes_and_s1).2.2.1 (str "www") (str "42") (str "A")
      [str "1.1.1.1"] 42 (by decide) (by decide) (by decide) (by decide)
      (by decide),
    (parse_zone_line_shapes_and_s1).2.2.2.1 (str "www") (str "CH") (str "A")
      [str "1.1.1.1"] (by decide) (by decide) (by decide),
    (parse_zone_line_shapes_and_s1).2.2.2.2.1 (str "www") (str "42")
      (str "CH") (str "A") [str "1.1.1.1"] 42 (by decide) (by decide)
      (by decide) (by decide) (by decide),
    (parse_zone_line_shapes_and_s1).2.2.2.2.2 (str "www") (str "CH")
      (str "42") (str "A") [str "1.1.1.1"] 42 (by decide) (by decide)
      (by decide) (by decide) (by decide) (by decide)⟩

theorem mk_record_label (lab : Str) (ttl? : Option Int) (ct? : Option Str)
    (origin path : Str) (rtype : Str) (rdata : List Str) (r : Record)
    (h : mk_record lab ttl? ct? origin path rtype rdata = .ok r) :
    r.label = lab := by
  unfold mk_record at h
  match ct? with
  | some c =>
    by_cases hc : c ∈ class_types
    · simp [hc, Bind.bind, Except.bind, Pure.pure, Except.pure] at h
      rw [← h]
    · simp [hc, Bind.bind, Except.bind, Pure.pure, Except.pure] at h
  | none =>
    simp [Bind.bind, Except.bind, Pure.pure, Except.pure] at h
    rw [← h]

/-- C9: `build_name_record` raises `ValueError` on a blank owner when no
previous label has been set, inherits the previous label (leaving the
builder state unchanged) when one exists, and a non-empty owner both
names the record and becomes the new previous label. -/
theorem build_name_record_owner_rules (names : List Str) (s : RBState)
    (lab : Str) (ttl? : Option Int) (ct : Option Str) (rtype : Str)
    (rdata : List Str) (path origin : Str) (rest : List (Str × Str))
    (hstack : s.stack = (path, origin) :: rest) :
    (lab = [] → falsy_label s.previous_label = true →
      build_name_record names s lab ttl? ct rtype rdata =
        .error "ValueError: No previous label") ∧
    (∀ pl st orec, lab = [] → s.previous_label = some pl → pl ≠ [] →
      build_name_record names s lab ttl? ct rtype rdata = .ok (st, orec) →
      st = s ∧ ∀ r, orec = some r → r.label = pl) ∧
    (lab ≠ [] → ∀ st orec,
      build_name_record names s lab ttl? ct rtype rdata = .ok (st, orec) →
      st.previous_label = some lab ∧ ∀ r, orec = some r → r.label = lab) := by
  refine ⟨?_, ?_, ?_⟩
  · intro hlab hprev
    subst hlab
    unfold build_name_record
    rw [hstack]
    match hp : s.previous_label with
    | none => simp [Bind.bind, Except.bind]
    | some pl =>
      rw [hp] at hprev
      simp only [falsy_label] at hprev
      simp [Bind.bind, Except.bind, hprev]
  · intro pl st orec hlab hprev hpl hrun
    subst hlab
    unfold build_name_record at hrun
    rw [hstack, hprev] at hrun
    have hpl2 : pl.isEmpty = false := by
      cases pl with
      | nil => exact absurd rfl hpl
      | cons a b => rfl
    simp only [List.isEmpty_nil, if_true, hpl2, Bool.false_eq_true, if_false,
      Bind.bind, Except.bind] at hrun
    by_cases hn : rtype ∈ names
    · simp only [hn, if_true] at hrun
      match hmk : mk_record pl (some (ttl?.getD s.ttl)) ct origin path rtype rdata with
      | .error e => rw [hmk] at hrun; simp [Bind.bind, Except.bind] at hrun
      | .ok r =>
        rw [hmk] at hrun
        simp only [Bind.bind, Except.bind, Pure.pure, Except.pure,
          Except.ok.injEq, Prod.mk.injEq] at hrun
        refine ⟨hrun.1.symm, ?_⟩
        intro r2 hr2
        rw [← hrun.2] at hr2
        have := mk_record_label _ _ _ _ _ _ _ _ hmk
        rw [Option.some.injEq] at hr2
        rw [← hr2]
        exact this
    · simp only [hn, if_false, Pure.pure, Except.pure, Except.ok.injEq,
        Prod.mk.injEq] at hrun
      exact ⟨hrun.1.symm, fun r2 hr2 => absurd (hrun.2 ▸ hr2) (by simp)⟩
  · intro hlab st orec hrun
    unfold build_name_record at hrun
    rw [hstack] at hrun
    have hlab2 : lab.isEmpty = false := by
      cases lab with
      | nil => exact absurd rfl hlab
      | cons a b => rfl
    simp only [hlab2, Bool.false_eq_true, if_false, Bind.bind,
      Except.bind] at hrun
    by_cases hn : rtype ∈ names
    · simp only [hn, if_true] at hrun
      match hmk : mk_record lab (some (ttl?.getD s.ttl)) ct origin path rtype rdata with
      | .error e => rw [hmk] at hrun; simp [Bind.bind, Except.bind] at hrun
      | .ok r =>
        rw [hmk] at hrun
        simp only [Bind.bind, Except.bind, Pure.pure, Except.pure,
          Except.ok.injEq, Prod.mk.injEq] at hrun
        constructor
        · rw [← hrun.1]
        · intro r2 hr2
          rw [← hrun.2, Option.some.injEq] at hr2
          rw [← hr2]
          exact mk_record_label _ _ _ _ _ _ _ _ hmk
    · simp only [hn, if_false, Pure.pure, Except.pure, Except.ok.injEq,
        Prod.mk.injEq] at hrun
      exact ⟨by rw [← hrun.1], fun r2 hr2 => absurd (hrun.2 ▸ hr2) (by simp)⟩

/-- Witness for C9: the first record of a zone with a blank owner raises
the inherited-owner error. -/
theorem build_name_record_owner_rules_witness :
    build_name_record names9 rb_w [] none none (str "A") [str "1.1.1.1"] =
      .error "ValueError: No previous label" :=
  (build_name_record_owner_rules names9 rb_w [] none none (str "A")
      [str "1.1.1.1"] (str "z") (str "o.") [] rfl).1 rfl (by decide)

theorem cache_get_put (c : Cache) (key : List Comp)
    (e : Record × List Config) (key2 : List Comp) :
    cache_get (cache_put c key e) key2 =
      if key2 = key then cache_get c key2 ++ [e] else cache_get c key2 := by
  induction c with
  | nil =>
    by_cases h : key2 = key
    · subst h; simp [cache_put, cache_get]
    · have h2 : ¬ key = key2 := fun hh => h hh.symm
      simp [cache_put, cache_get, h, h2]
  | cons kv rest ih =>
    obtain ⟨k, v⟩ := kv
    by_cases hk : k = key
    · subst hk
      simp only [cache_put, if_pos rfl]
      by_cases h : k = key2
      · subst h; simp [cache_get]
      · have h2 : ¬ key2 = k := fun hh => h hh.symm
        simp [cache_get, h, h2]
    · simp only [cache_put, if_neg hk]
      by_cases h2 : k = key2
      · subst h2
        simp [cache_get, hk]
      · simp only [cache_get, if_neg h2]
        exact ih

theorem cache_get_foldl (ps : List (Record × List Config)) (c0 : Cache)
    (key : List Comp) :
    cache_get
        (ps.foldl (fun c p => cache_put c (map_label (resolved_label p.1)) p)
          c0) key =
      cache_get c0 key ++
        ps.filter (fun p => decide (map_label (resolved_label p.1) = key)) := by
  induction ps generalizing c0 with
  | nil => simp
  | cons p ps ih =>
    rw [List.foldl_cons, ih, cache_get_put]
    by_cases h : key = map_label (resolved_label p.1)
    · rw [if_pos h,
        List.filter_cons_of_pos (by simp [h]),
        List.append_assoc, List.singleton_append]
    · rw [if_neg h,
        List.filter_cons_of_neg (by simp; intro hh; exact h hh.symm)]

theorem cache_get_build (zones : Zones) (key : List Comp) :
    cache_get (build_cache zones) key =
      (all_pairs zones).filter
        (fun p => decide (map_label (resolved_label p.1) = key)) := by
  unfold build_cache
  rw [cache_get_foldl]
  simp [cache_get]

theorem mem_bucket_hits (zones : Zones) (key : List Comp) (rf : RecFilter)
    (vf : ViewFilter) (r : Record) (h : r ∈ bucket_hits zones key rf vf) :
    ∃ cfgs, (r, cfgs) ∈ all_pairs zones ∧
      map_label (resolved_label r) = key ∧
      rec_filter_matches rf r = true ∧
      cfgs.any (fun c => config_filter_matches vf c) = true := by
  unfold bucket_hits hitsOf at h
  rw [cache_get_build] at h
  obtain ⟨p, hp, hfst⟩ := List.mem_map.1 h
  obtain ⟨r2, cfgs⟩ := p
  simp only at hfst
  subst hfst
  obtain ⟨hp1, hvf⟩ := List.mem_filter.1 hp
  obtain ⟨hp2, hrf⟩ := List.mem_filter.1 hp1
  obtain ⟨hmem, hkey⟩ := List.mem_filter.1 hp2
  exact ⟨cfgs, hmem, of_decide_eq_true hkey, hrf, hvf⟩

/-- Characterization of `regular_iquery` used by several claims: the
exact bucket is preferred, the wildcard bucket only answers when the
exact bucket yields nothing. -/
theorem regular_iquery_spec (zones : Zones) (label : Str) (rf : RecFilter)
    (vf : ViewFilter) :
    regular_iquery zones label rf vf =
      if (bucket_hits zones (map_label label) rf vf).isEmpty
      then bucket_hits zones (Comp.ANY :: (map_label label).drop 1) rf vf
      else bucket_hits zones (map_label label) rf vf := by
  unfold regular_iquery build_keys bucket_hits
  match h : hitsOf (build_cache zones) rf vf (map_label label) with
  | [] => simp [iq_go, h]
  | p :: ps => simp [iq_go, h]

/-- C1: with a wildcard-free label and any record and view filters,
`iquery` probes the exact labelized key first and the key with its first
component replaced by the `ANY` sentinel second, and the wildcard bucket
contributes only when the exact bucket yielded no record passing both
filters. -/
theorem regular_iquery_prefers_exact (zones : Zones) (label : Str)
    (rf : RecFilter) (vf : ViewFilter) (h : '*' ∉ label) :
    iquery zones label rf vf false =
      (if (bucket_hits zones (map_label label) rf vf).isEmpty
       then bucket_hits zones (Comp.ANY :: (map_label label).drop 1) rf vf
       else bucket_hits zones (map_label label) rf vf) ∧
    build_keys label =
      [(true, map_label label),
       (true, Comp.ANY :: (map_label label).drop 1)] := by
  constructor
  · have hq : iquery zones label rf vf false =
        regular_iquery zones label rf vf := by
      simp [iquery, h]
    rw [hq, regular_iquery_spec]
  · rfl

/-- Witness for C1 at a concrete database and label. -/
theorem regular_iquery_prefers_exact_witness :
    (iquery zones_w (str "a.b") .null .null false =
      (if (bucket_hits zones_w (map_label (str "a.b")) .null .null).isEmpty
       then bucket_hits zones_w
         (Comp.ANY :: (map_label (str "a.b")).drop 1) .null .null
       else bucket_hits zones_w (map_label (str "a.b")) .null .null)) ∧
    build_keys (str "a.b") =
      [(true, map_label (str "a.b")),
       (true, Comp.ANY :: (map_label (str "a.b")).drop 1)] :=
  regular_iquery_prefers_exact zones_w (str "a.b") .null .null (by decide)

theorem unqiue_go_filter (xs : List Record)
    (seen : List (Str × Int × Str × Str × VKey))
    (k : Str × Int × Str × Str × VKey) :
    (unqiue_go xs seen).filter (fun r => decide (full_key r = k)) =
      if k ∈ seen then []
      else (xs.filter (fun r => decide (full_key r = k))).take 1 := by
  induction xs generalizing seen with
  | nil => simp [unqiue_go]
  | cons r rs ih =>
    unfold unqiue_go
    by_cases hm : full_key r ∈ seen
    · rw [if_pos hm, ih]
      by_cases hk : k ∈ seen
      · simp [hk]
      · rw [if_neg hk, if_neg hk]
        have hne : ¬ (full_key r = k) := fun he => hk (he ▸ hm)
        rw [List.filter_cons_of_neg (by simpa using hne)]
    · rw [if_neg hm]
      by_cases hk : full_key r = k
      · rw [List.filter_cons_of_pos (by simpa using hk), ih,
          if_pos (hk ▸ List.mem_cons_self (full_key r) seen)]
        have hks : k ∉ seen := fun hc => hm (hk ▸ hc)
        rw [if_neg hks, List.filter_cons_of_pos (by simpa using hk)]
        simp [List.take]
      · rw [List.filter_cons_of_neg (by simpa using hk), ih]
        by_cases hks : k ∈ seen
        · rw [if_pos hks, if_pos (List.mem_cons_of_mem _ hks)]
        · have hkc : k ∉ full_key r :: seen := by
            intro hc
            rcases List.mem_cons.1 hc with he | he
            · exact hk he.symm
            · exact hks he
          rw [if_neg hks, if_neg hkc,
            List.filter_cons_of_neg (by simpa using hk)]

theorem unqiue_go_not_mem (xs : List Record)
    (seen : List (Str × Int × Str × Str × VKey)) (r : Record)
    (h : r ∈ unqiue_go xs seen) : full_key r ∉ seen := by
  induction xs generalizing seen with
  | nil => simp [unqiue_go] at h
  | cons a as ih =>
    unfold unqiue_go at h
    by_cases hm : full_key a ∈ seen
    · rw [if_pos hm] at h
      exact ih seen h
    · rw [if_neg hm] at h
      rcases List.mem_cons.1 h with he | he
      · subst he; exact hm
      · intro hc
        exact (ih _ he) (List.mem_cons_of_mem _ hc)

theorem unqiue_go_pairwise (xs : List Record)
    (seen : List (Str × Int × Str × Str × VKey)) :
    (unqiue_go xs seen).Pairwise (fun a b => full_key a ≠ full_key b) := by
  induction xs generalizing seen with
  | nil => simp [unqiue_go]
  | cons a as ih =>
    unfold unqiue_go
    by_cases hm : full_key a ∈ seen
    · rw [if_pos hm]; exact ih seen
    · rw [if_neg hm]
      refine List.Pairwise.cons ?_ (ih _)
      intro b hb he
      exact (unqiue_go_not_mem as _ b hb)
        (he ▸ List.mem_cons_self (full_key a) seen)

theorem unqiue_go_sublist (xs : List Record)
    (seen : List (Str × Int × Str × Str × VKey)) :
    (unqiue_go xs seen).Sublist xs := by
  induction xs generalizing seen with
  | nil => simp [unqiue_go]
  | cons a as ih =>
    unfold unqiue_go
    by_cases hm : full_key a ∈ seen
    · rw [if_pos hm]; exact (ih seen).cons a
    · rw [if_neg hm]; exact (ih _).cons₂ a

/-- C7: `iquery` with `unique=True` wraps the plain output in the
de-duplicator; the result never contains two records equal under record
equality (`__full_key__`), is a sublist of the plain output (original
order), and for every equality class keeps exactly the first occurrence
of that class. -/
theorem iquery_unique_dedup (zones : Zones) (label : Str) (rf : RecFilter)
    (vf : ViewFilter) :
    iquery zones label rf vf true =
        unqiue_generator (iquery zones label rf vf false) ∧
      (iquery zones label rf vf true).Pairwise
        (fun a b => full_key a ≠ full_key b) ∧
      (iquery zones label rf vf true).Sublist
        (iquery zones label rf vf false) ∧
      ∀ k, (iquery zones label rf vf true).filter
            (fun r => decide (full_key r = k)) =
          ((iquery zones label rf vf false).filter
              (fun r => decide (full_key r = k))).take 1 := by
  have hq : iquery zones label rf vf true =
      unqiue_generator (iquery zones label rf vf false) := by
    simp [iquery]
  refine ⟨hq, ?_, ?_, ?_⟩
  · rw [hq]; exact unqiue_go_pairwise _ []
  · rw [hq]; exact unqiue_go_sublist _ []
  · intro k
    rw [hq, unqiue_generator, unqiue_go_filter]
    simp

theorem to_comp_eq_any (a : Str) : to_comp a = Comp.ANY ↔ a = str "*" := by
  unfold to_comp
  by_cases h : a = str "*" <;> simp [h]

theorem to_comp_lit (a : Str) (h : a ≠ str "*") : to_comp a = .lit a := by
  simp [to_comp, h]

theorem map_to_comp_inj (xs ys : List Str) (hy : ∀ b ∈ ys, b ≠ str "*")
    (h : xs.map to_comp = ys.map to_comp) : xs = ys := by
  induction xs generalizing ys with
  | nil =>
    cases ys with
    | nil => rfl
    | cons b bs => simp at h
  | cons a as ih =>
    cases ys with
    | nil => simp at h
    | cons b bs =>
      simp only [List.map_cons, List.cons.injEq] at h
      have hb : b ≠ str "*" := hy b (List.mem_cons_self b bs)
      have ha : a = b := by
        rw [to_comp_lit b hb] at h
        by_cases has : a = str "*"
        · rw [has] at h
          simp [to_comp] at h
        · rw [to_comp_lit a has] at h
          exact Comp.lit.inj h.1
      subst ha
      rw [ih bs (fun c hc => hy c (List.mem_cons_of_mem _ hc)) h.2]

theorem comps_no_star (lab : Str) (h : '*' ∉ lab) :
    ∀ b ∈ splitOnDot (normalize_label lab), b ≠ str "*" := by
  intro b hb he
  have hstar : '*' ∈ b := by
    rw [he]; decide
  have hmem : '*' ∈ normalize_label lab :=
    mem_of_mem_splitOnDot _ b '*' hb hstar
  rcases mem_normalize lab '*' hmem with h1 | h1
  · exact h h1
  · exact absurd h1 (by decide)

/-- C10: a wildcard-free query can only return records whose
`resolved_label`, split on dots, equals the components of the normalized
query exactly — character for character, hence case-sensitively —
either verbatim or with the first component equal to `*`. -/
theorem regular_iquery_exact_case (zones : Zones) (lab : Str)
    (rf : RecFilter) (vf : ViewFilter) (r : Record) (h : '*' ∉ lab)
    (hm : r ∈ iquery zones lab rf vf false) :
    splitOnDot (resolved_label r) = splitOnDot (normalize_label lab) ∨
      splitOnDot (resolved_label r) =
        str "*" :: (splitOnDot (normalize_label lab)).drop 1 := by
  have hq : iquery zones lab rf vf false =
      regular_iquery zones lab rf vf := by
    simp [iquery, h]
  rw [hq, regular_iquery_spec] at hm
  have hres : normalize_label (resolved_label r) = resolved_label r :=
    normalize_of_endsWithDot _ (resolved_label_endsWithDot r)
  by_cases he : (bucket_hits zones (map_label lab) rf vf).isEmpty = true
  · rw [if_pos he] at hm
    obtain ⟨cfgs, hmem, hkey, hrf, hvf⟩ := mem_bucket_hits _ _ _ _ _ hm
    right
    unfold map_label at hkey
    rw [hres] at hkey
    match hsp : splitOnDot (resolved_label r) with
    | [] => exact absurd hsp (splitOnDot_ne_nil _)
    | z :: zs =>
      rw [hsp] at hkey
      simp only [List.map_cons, List.cons.injEq] at hkey
      have hz : z = str "*" := (to_comp_eq_any z).1 hkey.1
      have hzs : zs = (splitOnDot (normalize_label lab)).drop 1 := by
        apply map_to_comp_inj
        · intro b hb
          exact comps_no_star lab h b (List.mem_of_mem_drop hb)
        · rw [hkey.2, List.map_drop]
      rw [hz, hzs]
  · rw [if_neg he] at hm
    obtain ⟨cfgs, hmem, hkey, hrf, hvf⟩ := mem_bucket_hits _ _ _ _ _ hm
    left
    unfold map_label at hkey
    rw [hres] at hkey
    exact map_to_comp_inj _ _ (comps_no_star lab h) hkey

/-- Witness for C10 at a concrete database and label. -/
theorem regular_iquery_exact_case_witness :
    splitOnDot (resolved_label rbw1) =
        splitOnDot (normalize_label (str "a.b")) ∨
      splitOnDot (resolved_label rbw1) =
        str "*" :: (splitOnDot (normalize_label (str "a.b"))).drop 1 :=
  regular_iquery_exact_case zones_w (str "a.b") .null .null rbw1
    (by decide) (by decide)

theorem parseGlobAux_noMeta (l : List Char) (f : Nat) (hf : l.length ≤ f)
    (h : ∀ c ∈ l, c ≠ '*' ∧ c ≠ '?' ∧ c ≠ '[') :
    parseGlobAux f l = l.map .lit := by
  induction l generalizing f with
  | nil =>
    match f with
    | 0 => rfl
    | f + 1 => rfl
  | cons c rest ih =>
    match f with
    | 0 => simp at hf
    | f + 1 =>
      obtain ⟨h1, h2, h3⟩ := h c (List.mem_cons_self c rest)
      have hr : rest.length ≤ f := by
        simp only [List.length_cons] at hf
        omega
      simp only [parseGlobAux, if_neg h1, if_neg h2, if_neg h3, List.map_cons]
      rw [ih f hr (fun d hd => h d (List.mem_cons_of_mem _ hd))]

theorem matchT_lits_self (L : Str) (f : Nat) (hf : L.length < f) :
    matchT f (L.map .lit) L = true := by
  induction L generalizing f with
  | nil =>
    match f with
    | 0 => simp at hf
    | f + 1 => rfl
  | cons c rest ih =>
    match f with
    | 0 => simp at hf
    | f + 1 =>
      have hr : rest.length < f := by
        simp only [List.length_cons] at hf
        omega
      simp only [List.map_cons, matchT, ih f hr]
      simp

theorem matchT_star_append (y L : Str) (f : Nat)
    (hf : y.length + L.length + 1 < f) :
    matchT f (.star :: L.map .lit) (y ++ L) = true := by
  induction y generalizing f with
  | nil =>
    match f with
    | 0 => simp at hf
    | f + 1 =>
      simp only [List.nil_append]
      cases L with
      | nil =>
        have hf2 : 0 < f := by
          simp at hf
          omega
        match f, hf2 with
        | f2 + 1, _ => rfl
      | cons c rest =>
        have hlen : (c :: rest).length < f := by
          simp only [List.nil_append, List.length_nil, List.length_cons] at hf ⊢
          omega
        have hlits := matchT_lits_self (c :: rest) f hlen
        simp only [List.map_cons] at hlits
        simp only [List.map_cons, matchT, hlits, Bool.true_or]
  | cons c y' ih =>
    match f with
    | 0 => simp at hf
    | f + 1 =>
      have h2 : matchT f (.star :: L.map .lit) (y' ++ L) = true := by
        apply ih
        simp only [List.length_cons] at hf
        omega
      simp [matchT, h2]

theorem fnmatch_star_lits (y L : Str)
    (hL : ∀ c ∈ L, c ≠ '*' ∧ c ≠ '?' ∧ c ≠ '[') :
    fnmatch (y ++ L) ('*' :: L) = true := by
  unfold fnmatch
  have hp : parseGlob ('*' :: L) = .star :: L.map .lit := by
    unfold parseGlob
    have hlen : ('*' :: L).length = L.length + 1 := by simp
    rw [hlen]
    have hrest := parseGlobAux_noMeta L L.length (le_refl _) hL
    simp [parseGlobAux, hrest]
  rw [hp]
  apply matchT_star_append
  simp only [List.length_cons, List.length_map, List.length_append]
  omega

theorem normalize_append (y t : Str) (ht : t ≠ []) :
    normalize_label (y ++ t) = y ++ normalize_label t := by
  unfold normalize_label
  rw [endsWithDot_append y t ht]
  by_cases h : endsWithDot t
  · simp [h]
  · simp [h, List.append_assoc]

theorem normalize_cons_dot (x : Str) :
    ∃ M : Str, normalize_label ('.' :: x) = '.' :: M ∧
      (M = x ∨ M = x ++ ['.']) := by
  unfold normalize_label
  by_cases h : endsWithDot ('.' :: x)
  · exact ⟨x, by simp [h], Or.inl rfl⟩
  · exact ⟨x ++ ['.'], by simp [h], Or.inr rfl⟩

/-- C8 counterexample: for the name `y.d[ab]` the direct lookup is
non-empty, yet the record is missing from the wildcard lookup
`*.d[ab]` — `fnmatch` interprets `[ab]` in the resolved pattern as a
character class, which the literal resolved label does not match.  The
wildcard result is therefore not a superset of the direct result. -/
theorem wildcard_superset_cex :
    query zones_g (str "y.d[ab]") .null .null false = [rGlob] ∧
      rGlob ∉ query zones_g (str "*.d[ab]") .null .null false :=
  ⟨by decide, by decide⟩

/-- C8 (amended): for names `y.x` whose first component `y` is dot-free
and star-free and whose remainder `x` contains no glob metacharacter
(`*`, `?`, `[`), every record returned by the direct lookup of `y.x`
(with no record or view filters) is also returned by the wildcard
lookup of `*.x`. -/
theorem wildcard_superset_noMeta (zones : Zones) (y x : Str) (r : Record)
    (hy1 : '.' ∉ y) (hy2 : '*' ∉ y)
    (hx : ∀ c ∈ x, c ≠ '*' ∧ c ≠ '?' ∧ c ≠ '[')
    (hm : r ∈ query zones (y ++ '.' :: x) .null .null false) :
    r ∈ query zones ('*' :: '.' :: x) .null .null false := by
  -- The direct label contains no star, so the direct lookup is regular.
  have hstar_lab : '*' ∉ y ++ '.' :: x := by
    intro hc
    rcases List.mem_append.1 hc with h1 | h1
    · exact hy2 h1
    · rcases List.mem_cons.1 h1 with h2 | h2
      · exact absurd h2 (by decide)
      · exact (hx '*' h2).1 rfl
  -- Normalization of the two labels shares the suffix N.
  obtain ⟨M, hN, hMcases⟩ := normalize_cons_dot x
  have hnoMetaM : ∀ c ∈ M, c ≠ '*' ∧ c ≠ '?' ∧ c ≠ '[' := by
    intro c hc
    rcases hMcases with rfl | rfl
    · exact hx c hc
    · rcases List.mem_append.1 hc with h1 | h1
      · exact hx c h1
      · simp only [List.mem_singleton] at h1
        subst h1
        refine ⟨by decide, by decide, by decide⟩
  have hnoMetaN : ∀ c ∈ normalize_label ('.' :: x),
      c ≠ '*' ∧ c ≠ '?' ∧ c ≠ '[' := by
    intro c hc
    rw [hN] at hc
    rcases List.mem_cons.1 hc with h1 | h1
    · subst h1
      refine ⟨by decide, by decide, by decide⟩
    · exact hnoMetaM c h1
  have hnormlab : normalize_label (y ++ '.' :: x) =
      y ++ '.' :: M := by
    rw [normalize_append y ('.' :: x) (by simp), hN]
  have hnormpat : normalize_label ('*' :: '.' :: x) =
      '*' :: '.' :: M := by
    have : ('*' :: '.' :: x : Str) = ['*'] ++ '.' :: x := rfl
    rw [this, normalize_append ['*'] ('.' :: x) (by simp), hN]
    rfl
  have hkeylab : map_label (y ++ '.' :: x) =
      to_comp y :: (splitOnDot M).map to_comp := by
    unfold map_label
    rw [hnormlab, splitOnDot_append_cons y M hy1, List.map_cons]
  have hM_no_star : ∀ b ∈ splitOnDot M, b ≠ str "*" := by
    intro b hb he
    have hstarb : '*' ∈ b := by rw [he]; decide
    exact (hnoMetaM '*' (mem_of_mem_splitOnDot M b '*' hb hstarb)).1 rfl
  have hy_ne : y ≠ str "*" := by
    intro he
    apply hy2
    rw [he]
    decide
  -- Extract the direct hit.
  have hq : query zones (y ++ '.' :: x) .null .null false =
      regular_iquery zones (y ++ '.' :: x) .null .null := by
    simp [query, iquery, hstar_lab]
  rw [hq, regular_iquery_spec] at hm
  have hres_norm : normalize_label (resolved_label r) = resolved_label r :=
    normalize_of_endsWithDot _ (resolved_label_endsWithDot r)
  -- In both bucket cases, pin down resolved_label r and its fnmatch.
  have main : ∃ cfgs, (r, cfgs) ∈ all_pairs zones ∧
      cfgs.any (fun c => config_filter_matches ViewFilter.null c) = true ∧
      fnmatch (resolved_label r) (normalize_label ('*' :: '.' :: x)) = true := by
    by_cases he : (bucket_hits zones (map_label (y ++ '.' :: x))
        RecFilter.null ViewFilter.null).isEmpty = true
    · rw [if_pos he] at hm
      obtain ⟨cfgs, hmem, hkey, _, hvf⟩ := mem_bucket_hits _ _ _ _ _ hm
      refine ⟨cfgs, hmem, hvf, ?_⟩
      rw [hkeylab] at hkey
      simp only [List.drop_succ_cons, List.drop_zero] at hkey
      unfold map_label at hkey
      rw [hres_norm] at hkey
      -- resolved label splits as "*" :: splitOnDot M
      match hsp : splitOnDot (resolved_label r) with
      | [] => exact absurd hsp (splitOnDot_ne_nil _)
      | z :: zs =>
        rw [hsp] at hkey
        simp only [List.map_cons, List.cons.injEq] at hkey
        have hz : z = str "*" := (to_comp_eq_any z).1 hkey.1
        have hzs : zs = splitOnDot M :=
          map_to_comp_inj _ _ hM_no_star hkey.2
        have hresolved : resolved_label r = '*' :: '.' :: M := by
          have hjoin := joinDots_splitOnDot (resolved_label r)
          rw [hsp, hz, hzs,
            joinDots_cons _ _ (splitOnDot_ne_nil M),
            joinDots_splitOnDot M] at hjoin
          exact hjoin.symm
        rw [hresolved, hnormpat]
        have := fnmatch_star_lits ['*'] ('.' :: M) (by
          intro c hc
          rw [← hN] at hc
          exact hnoMetaN c hc)
        simpa using this
    · rw [if_neg he] at hm
      obtain ⟨cfgs, hmem, hkey, _, hvf⟩ := mem_bucket_hits _ _ _ _ _ hm
      refine ⟨cfgs, hmem, hvf, ?_⟩
      rw [hkeylab] at hkey
      unfold map_label at hkey
      rw [hres_norm] at hkey
      have hsplit : splitOnDot (resolved_label r) = y :: splitOnDot M := by
        have hy_all : ∀ b ∈ y :: splitOnDot M, b ≠ str "*" := by
          intro b hb
          rcases List.mem_cons.1 hb with h1 | h1
          · subst h1; exact hy_ne
          · exact hM_no_star b h1
        exact map_to_comp_inj _ _ hy_all (by simpa using hkey)
      have hresolved : resolved_label r = y ++ '.' :: M := by
        have hjoin := joinDots_splitOnDot (resolved_label r)
        rw [hsplit, joinDots_cons _ _ (splitOnDot_ne_nil M),
          joinDots_splitOnDot M] at hjoin
        exact hjoin.symm
      rw [hresolved, hnormpat]
      have := fnmatch_star_lits y ('.' :: M) (by
        intro c hc
        rw [← hN] at hc
        exact hnoMetaN c hc)
      simpa using this
  -- Package the record into the wildcard output.
  obtain ⟨cfgs, hmem, hvf, hfn⟩ := main
  have hstar_pat : '*' ∈ ('*' :: '.' :: x : Str) :=
    List.mem_cons_self '*' ('.' :: x)
  have hwq : query zones ('*' :: '.' :: x) .null .null false =
      wildcard_iquery zones ('*' :: '.' :: x) .null .null := by
    simp [query, iquery, hstar_pat]
  rw [hwq]
  unfold wildcard_iquery
  apply List.mem_map.2
  refine ⟨(r, cfgs), ?_, rfl⟩
  apply List.mem_filter.2
  refine ⟨?_, hvf⟩
  apply List.mem_filter.2
  refine ⟨?_, rfl⟩
  unfold wildcard_records
  apply List.mem_filter.2
  exact ⟨hmem, hfn⟩

/-- Witness for C8 at a concrete database: the direct hit for `a.b`
reappears under `*.b`. -/
theorem wildcard_superset_noMeta_witness :
    rbw1 ∈ query zones_w ('*' :: '.' :: str "b") .null .null false :=
  wildcard_superset_noMeta zones_w (str "a") (str "b") rbw1
    (by decide) (by decide) (by decide) (by decide)

end Bsa

